import Mathlib

/-!
Shallow embedding of the `RawMemory` / `Vector` container of `src/vector.h`.

Storage is modelled by a `Heap`: a bump allocator that hands out block
identifiers, with `mem b` holding the list of constructed elements of block
`b` (the constructed prefix of the block's element slots).  `RawMemory` and
`Vector` are translated field by field; every operation is the net effect of
the corresponding member function on the handles and the heap, with the
standard-library calls (`uninitialized_copy_n`, `copy_n`, `destroy_n`,
`move_backward`, overlapping `move`, ...) translated by their documented net
semantics on the block contents.  Construction-order and move-versus-copy
facts, which the net state does not show, are captured by event-trace
functions translated from the same member functions.
-/

/-- A bump-allocating heap of element blocks: `next` is the next fresh block
identifier, `mem b` the constructed elements of block `b`. -/
structure Heap (α : Type) where
  next : Nat
  mem : Nat → List α

/-- Overwrite the constructed contents of block `b`. -/
def setBlock {α : Type} (h : Heap α) (b : Nat) (l : List α) : Heap α :=
  ⟨h.next, fun q => if q = b then l else h.mem q⟩

/-- `RawMemory<T>`: `buffer_` (a block identifier, `none` for `nullptr`) and
`capacity_`. -/
structure RawMemory (α : Type) where
  buffer : Option Nat
  capacity : Nat
deriving DecidableEq

/-- `RawMemory(size_t capacity)`: `Allocate` returns `nullptr` when the
requested capacity is `0`, otherwise a fresh block; `capacity_` is set to the
request. -/
def RawMemory.create {α : Type} (h : Heap α) (capacity : Nat) :
    Heap α × RawMemory α :=
  if capacity = 0 then (h, ⟨none, 0⟩)
  else (⟨h.next + 1, fun q => if q = h.next then [] else h.mem q⟩,
        ⟨some h.next, capacity⟩)

/-- `Vector<T>`: `data_` and `size_`. -/
structure Vector (α : Type) where
  data : RawMemory α
  size : Nat
deriving DecidableEq

/-- `Vector::Size()`. -/
def Vector.Size {α : Type} (v : Vector α) : Nat := v.size

/-- `Vector::Capacity()` (returns `data_.Capacity()`). -/
def Vector.Capacity {α : Type} (v : Vector α) : Nat := v.data.capacity

/-- The constructed elements currently sitting in the vector's block. -/
def Vector.live {α : Type} (h : Heap α) (v : Vector α) : List α :=
  match v.data.buffer with
  | none => []
  | some b => h.mem b

/-- A well-formed vector state: the block holds exactly `size_` constructed
elements, `size_ <= capacity_`, and the block identifier is one the heap has
actually handed out (a null buffer goes with capacity `0`, as produced by
`Allocate`). -/
def Vector.valid {α : Type} (h : Heap α) (v : Vector α) : Prop :=
  (v.live h).length = v.size ∧ v.size ≤ v.data.capacity ∧
  (match v.data.buffer with
   | some b => b < h.next
   | none => v.data.capacity = 0)

/-- Invariant B of the specification: `size <= capacity`. -/
def Vector.sizeLeCapacity {α : Type} (v : Vector α) : Prop :=
  v.size ≤ v.data.capacity

/-- `Vector() noexcept = default`. -/
def Vector.emptyVec {α : Type} : Vector α := ⟨⟨none, 0⟩, 0⟩

/-- `Vector(Vector&& other) noexcept`: the member initialiser list moves
`other.data_` (`RawMemory`'s move constructor swaps it with a
default-initialised `{nullptr, 0}`) and initialises `size_` by reading
`other.size_`; the source's `size_` member itself is left untouched.
Returns the pair (constructed vector, state of `other` afterwards). -/
def Vector.moveCtor {α : Type} (other : Vector α) : Vector α × Vector α :=
  (⟨other.data, other.size⟩, ⟨⟨none, 0⟩, other.size⟩)

/-- `Vector::Swap`: swaps `data_` and `size_` of the two objects. -/
def Vector.Swap {α : Type} (a b : Vector α) : Vector α × Vector α :=
  (⟨b.data, b.size⟩, ⟨a.data, a.size⟩)

/-- `operator=(Vector&&)`: when the `this != &rhs` address test fails
(`same = true`), nothing happens; otherwise `Swap(rhs)`. -/
def Vector.moveAssign {α : Type} (same : Bool) (t rhs : Vector α) :
    Vector α × Vector α :=
  if same then (t, rhs) else Vector.Swap t rhs

/-- `Vector(const Vector& other)`: allocates `RawMemory(other.size_)`, then
`uninitialized_copy_n(other.data_.GetAddress(), other.size_,
data_.GetAddress())`. -/
def Vector.copyCtor {α : Type} (h : Heap α) (other : Vector α) :
    Heap α × Vector α :=
  let p := RawMemory.create h other.size
  match p.2.buffer with
  | none => (p.1, ⟨p.2, other.size⟩)
  | some b => (setBlock p.1 b ((other.live h).take other.size), ⟨p.2, other.size⟩)

/-- `operator=(const Vector&)`: when `this == &rhs` (`same = true`) nothing
happens.  Otherwise, if `rhs.size_ > data_.Capacity()`, a full temporary copy
`Vector new_vector(rhs)` is built and swapped in, and `new_vector`'s
destructor then destroys the old elements (when its buffer is non-null) and
frees the old block.  Otherwise the existing storage is reused:
`copy_n(rhs.begin(), min(size_, rhs.size_), begin())`, then either
`uninitialized_copy_n` of the extra source elements (source longer) or
`destroy_n` of the extra target elements (source shorter).  Finally
`size_ = rhs.size_`. -/
def Vector.copyAssign {α : Type} (same : Bool) (h : Heap α) (t rhs : Vector α) :
    Heap α × Vector α :=
  if same then (h, t)
  else if t.data.capacity < rhs.size then
    let p := Vector.copyCtor h rhs
    let sw := Vector.Swap t p.2
    let h2 := match t.data.buffer with
      | none => p.1
      | some b => setBlock p.1 b []
    (h2, ⟨sw.1.data, rhs.size⟩)
  else
    match t.data.buffer with
    | none => (h, ⟨t.data, rhs.size⟩)
    | some b =>
      let src := rhs.live h
      let old := h.mem b
      let m := min t.size rhs.size
      let l1 := src.take m ++ old.drop m
      let l2 :=
        if t.size < rhs.size then
          l1.take t.size ++ (src.drop t.size).take (rhs.size - t.size)
        else if rhs.size < t.size then l1.take rhs.size
        else l1
      (setBlock h b l2, ⟨t.data, rhs.size⟩)

/-- `Vector::Reserve(size_t capacity)`: no-op when
`data_.Capacity() >= capacity`; otherwise allocate `RawMemory(capacity)`,
`SafeInitializedRawMemory(data_.GetAddress(), size_, new_data.GetAddress())`
(net contents: the `size_` live elements), `destroy_n(data_.GetAddress(),
size_)`, then `data_.Swap(new_data)` (the old raw block is freed on scope
exit). -/
def Vector.Reserve {α : Type} (h : Heap α) (v : Vector α) (capacity : Nat) :
    Heap α × Vector α :=
  if capacity ≤ v.data.capacity then (h, v)
  else
    let p := RawMemory.create h capacity
    match p.2.buffer with
    | none => (p.1, ⟨p.2, v.size⟩)
    | some b =>
      let h1 := setBlock p.1 b ((v.live h).take v.size)
      let h2 := match v.data.buffer with
        | none => h1
        | some ob => setBlock h1 ob ((h1.mem ob).drop v.size)
      (h2, ⟨p.2, v.size⟩)

/-- `Vector::Resize(size_t new_size)`: `Reserve(new_size)` first; then the
source checks `new_size <= Capacity()` and value-constructs the added slots
or destroys the removed ones; the trailing `new_size > Capacity()` branch of
the source is kept here verbatim although the initial `Reserve` has already
made it unreachable; finally `size_ = new_size`. -/
def Vector.Resize {α : Type} [Inhabited α] (h : Heap α) (v : Vector α)
    (newSize : Nat) : Heap α × Vector α :=
  let p := Vector.Reserve h v newSize
  let h1 := p.1
  let v1 := p.2
  let h2 :=
    if newSize ≤ v1.data.capacity then
      if v1.size < newSize then
        match v1.data.buffer with
        | none => h1
        | some b =>
          setBlock h1 b
            ((h1.mem b).take v1.size ++ List.replicate (newSize - v1.size) default)
      else if newSize < v1.size then
        match v1.data.buffer with
        | none => h1
        | some b => setBlock h1 b ((h1.mem b).take newSize)
      else h1
    else h1
  let p2 :=
    if v1.data.capacity < newSize then
      let q := Vector.Reserve h2 v1 newSize
      let h3 := match q.2.data.buffer with
        | none => q.1
        | some b =>
          setBlock q.1 b
            ((q.1.mem b).take q.2.size ++ List.replicate (newSize - q.2.size) default)
      (h3, q.2)
    else (h2, v1)
  (p2.1, ⟨p2.2.data, newSize⟩)

/-- `PushBack(Type&& value)` (and `PushBack(const T&)`, which appends via
`EmplaceBack`): with spare capacity, placement-`new` of the value at slot
`size_`; otherwise allocate `RawMemory(size_ == 0 ? 1 : size_ * 2)`,
placement-`new` the value into the new block at slot `size_` first, then
`SafeInitializedRawMemory` relocates slots `[0, size_)` (net contents of the
new block: relocated elements followed by the new value), then
`destroy_n(data_.GetAddress(), size_)` and `data_.Swap(new_data)`; finally
`++size_`. -/
def Vector.PushBack {α : Type} (h : Heap α) (v : Vector α) (x : α) :
    Heap α × Vector α :=
  if v.size < v.data.capacity then
    match v.data.buffer with
    | none => (h, ⟨v.data, v.size + 1⟩)
    | some b =>
      (setBlock h b ((h.mem b).take v.size ++ [x]), ⟨v.data, v.size + 1⟩)
  else
    let p := RawMemory.create h (if v.size = 0 then 1 else v.size * 2)
    match p.2.buffer with
    | none => (p.1, ⟨p.2, v.size + 1⟩)
    | some b =>
      let h1 := setBlock p.1 b ((v.live h).take v.size ++ [x])
      let h2 := match v.data.buffer with
        | none => h1
        | some ob => setBlock h1 ob ((h1.mem ob).drop v.size)
      (h2, ⟨p.2, v.size + 1⟩)

/-- `Vector::PopBack()`: `destroy_n(data_.GetAddress() + size_ - 1, 1)` then
`--size_`. -/
def Vector.PopBack {α : Type} (h : Heap α) (v : Vector α) : Heap α × Vector α :=
  let h1 := match v.data.buffer with
    | none => h
    | some b => setBlock h b ((h.mem b).take (v.size - 1))
  (h1, ⟨v.data, v.size - 1⟩)

/-- Net effect of `std::move_backward(first, last, d_last)` on a block's
contents (indices are slot offsets): the range `[first, last)` ends up at
`[d_last - (last - first), d_last)`, everything else is unchanged. -/
def stdMoveBackward {α : Type} (l : List α) (first last dLast : Nat) : List α :=
  l.take (dLast - (last - first)) ++ (l.drop first).take (last - first) ++
    l.drop dLast

/-- Net effect of the overlapping forward `std::move(first, last, d_first)`
on a block's contents: the range `[first, last)` ends up at
`[d_first, d_first + (last - first))`. -/
def stdMoveForward {α : Type} (l : List α) (first last dFirst : Nat) : List α :=
  l.take dFirst ++ (l.drop first).take (last - first) ++
    l.drop (dFirst + (last - first))

/-- `EmplaceWithoutReallocate(pos, args...)`, with `index = pos - begin()`:
when `pos != end()`, placement-`new` at `end()` of the last element
(`T(std::forward<T>(data_[size_ - 1]))`), then
`std::move_backward(begin() + index, end() - 1, end())`, then assignment of
`T(args...)` into `begin() + index`; when `pos == end()`, placement-`new` of
`T(args...)` at `end()`.  Then `size_++`; returns `begin() + index`. -/
def Vector.EmplaceWithoutReallocate {α : Type} [Inhabited α] (h : Heap α)
    (v : Vector α) (index : Nat) (x : α) : Heap α × Vector α × Nat :=
  match v.data.buffer with
  | none => (h, ⟨v.data, v.size + 1⟩, index)
  | some b =>
    if index ≠ v.size then
      let l := h.mem b
      let l1 := l.take v.size ++ [l.getD (v.size - 1) default]
      let l2 := stdMoveBackward l1 index (v.size - 1) v.size
      let l3 := l2.set index x
      (setBlock h b l3, ⟨v.data, v.size + 1⟩, index)
    else
      (setBlock h b ((h.mem b).take v.size ++ [x]), ⟨v.data, v.size + 1⟩, index)

/-- `EmplaceWithReallocate(pos, args...)`, with `index = pos - begin()`:
allocate `RawMemory(size_ == 0 ? 1 : size_ * 2)`, placement-`new` of
`T(args...)` at slot `index` of the new block, then two
`SafeInitializedRawMemory` calls relocate slots `[0, index)` and
`[index, size_)` around it (net contents of the new block: prefix, new
element, suffix), then `destroy_n` of the old elements and `data_.Swap`;
`size_++`; returns `begin() + index`. -/
def Vector.EmplaceWithReallocate {α : Type} (h : Heap α) (v : Vector α)
    (index : Nat) (x : α) : Heap α × Vector α × Nat :=
  let p := RawMemory.create h (if v.size = 0 then 1 else v.size * 2)
  match p.2.buffer with
  | none => (p.1, ⟨p.2, v.size + 1⟩, index)
  | some b =>
    let l := v.live h
    let h1 := setBlock p.1 b
      (l.take index ++ [x] ++ (l.drop index).take (v.size - index))
    let h2 := match v.data.buffer with
      | none => h1
      | some ob => setBlock h1 ob ((h1.mem ob).drop v.size)
    (h2, ⟨p.2, v.size + 1⟩, index)

/-- `Emplace(pos, args...)`, with `index = pos - begin()`: dispatches on
`Capacity() > size_`. -/
def Vector.Emplace {α : Type} [Inhabited α] (h : Heap α) (v : Vector α)
    (index : Nat) (x : α) : Heap α × Vector α × Nat :=
  if v.size < v.data.capacity then Vector.EmplaceWithoutReallocate h v index x
  else Vector.EmplaceWithReallocate h v index x

/-- `Insert(pos, value)` forwards to `Emplace`. -/
def Vector.Insert {α : Type} [Inhabited α] (h : Heap α) (v : Vector α)
    (index : Nat) (x : α) : Heap α × Vector α × Nat :=
  Vector.Emplace h v index x

/-- `EmplaceBack(args...)` forwards to `Emplace(end(), args...)`. -/
def Vector.EmplaceBack {α : Type} [Inhabited α] (h : Heap α) (v : Vector α)
    (x : α) : Heap α × Vector α :=
  let q := Vector.Emplace h v v.size x
  (q.1, q.2.1)

/-- `Erase(pos)`, with `index = pos - begin()`: overlapping forward
`std::move(begin() + index + 1, end(), begin() + index)`, then
`destroy_at(end() - 1)`, then `size_--`; returns `begin() + index`. -/
def Vector.Erase {α : Type} (h : Heap α) (v : Vector α) (index : Nat) :
    Heap α × Vector α × Nat :=
  match v.data.buffer with
  | none => (h, ⟨v.data, v.size - 1⟩, index)
  | some b =>
    let l := h.mem b
    let l1 := stdMoveForward l (index + 1) v.size index
    let l2 := l1.take (v.size - 1)
    (setBlock h b l2, ⟨v.data, v.size - 1⟩, index)

/-- Kind of element construction used when relocating into fresh raw
memory. -/
inductive RelocKind where
  | moveCons
  | copyCons
deriving DecidableEq

/-- The compile-time branch of `SafeInitializedRawMemory`:
`if constexpr (std::is_nothrow_move_constructible_v<T> ||
!std::is_copy_constructible_v<T>)` selects `uninitialized_move_n`, the other
branch `uninitialized_copy_n`.  The two trait queries are the only inputs, so
the choice is a single value per element type. -/
def SafeInitializedRawMemoryKind (nothrowMove copyConstructible : Bool) :
    RelocKind :=
  if nothrowMove || !copyConstructible then RelocKind.moveCons
  else RelocKind.copyCons

/-- `uninitialized_move_n(src, count, dst)` move-constructs each of the
`count` elements. -/
def stdUninitMoveEvents (count : Nat) : List RelocKind :=
  List.replicate count RelocKind.moveCons

/-- `uninitialized_copy_n(src, count, dst)` copy-constructs each of the
`count` elements. -/
def stdUninitCopyEvents (count : Nat) : List RelocKind :=
  List.replicate count RelocKind.copyCons

/-- Per-element construction events of
`SafeInitializedRawMemory(source_range, count, raw_memory)`. -/
def SafeInitializedRawMemoryEvents (nothrowMove copyConstructible : Bool)
    (count : Nat) : List RelocKind :=
  match SafeInitializedRawMemoryKind nothrowMove copyConstructible with
  | RelocKind.moveCons => stdUninitMoveEvents count
  | RelocKind.copyCons => stdUninitCopyEvents count

/-- Per-element construction events of the copy constructor, which calls
`uninitialized_copy_n(other.data_.GetAddress(), other.size_, ...)`
directly. -/
def Vector.copyCtorEvents {α : Type} (other : Vector α) : List RelocKind :=
  stdUninitCopyEvents other.size

/-- Events of the reallocating operations, in source order. -/
inductive VecEvent where
  | allocBlockOf (c : Nat)
  | constructAt (i : Nat)
  | relocateFrom (i : Nat)
  | destroyOldAll
  | swapStorage
deriving DecidableEq

/-- Event trace of `PushBack(Type&&)`, in source order: with spare capacity a
single placement-`new` at slot `size_`; otherwise allocation, placement-`new`
of the new value at slot `size_`, `SafeInitializedRawMemory` relocating slots
`[0, size_)` in order, `destroy_n` of the old elements, `data_.Swap`. -/
def Vector.PushBackEvents {α : Type} (v : Vector α) : List VecEvent :=
  if v.size < v.data.capacity then [VecEvent.constructAt v.size]
  else
    VecEvent.allocBlockOf (if v.size = 0 then 1 else v.size * 2) ::
    VecEvent.constructAt v.size ::
    ((List.range v.size).map VecEvent.relocateFrom ++
      [VecEvent.destroyOldAll, VecEvent.swapStorage])

/-- Element-lifecycle events of the assignment operators. -/
inductive AssignEvent where
  | constructElem
  | destroyElem
  | assignElem
deriving DecidableEq

/-- Element-lifecycle events of `operator=(const Vector&)`: nothing on
self-assignment; on the reallocating branch `rhs.size_` copy-constructions
(the temporary) followed by the destruction of the old elements; on the
reuse branch `min(size_, rhs.size_)` assignments followed by either the
extra copy-constructions or the extra destructions. -/
def Vector.copyAssignEvents {α : Type} (same : Bool) (t rhs : Vector α) :
    List AssignEvent :=
  if same then []
  else if t.data.capacity < rhs.size then
    List.replicate rhs.size AssignEvent.constructElem ++
      List.replicate t.size AssignEvent.destroyElem
  else
    List.replicate (min t.size rhs.size) AssignEvent.assignElem ++
      (if t.size < rhs.size then
        List.replicate (rhs.size - t.size) AssignEvent.constructElem
      else if rhs.size < t.size then
        List.replicate (t.size - rhs.size) AssignEvent.destroyElem
      else [])

/-- Element-lifecycle events of `operator=(Vector&&)`: `Swap` touches no
element, so the trace is empty on both branches of the address test. -/
def Vector.moveAssignEvents {α : Type} (same : Bool) (t rhs : Vector α) :
    List AssignEvent :=
  if same then [] else []

/-- The observable outcome of a growth attempt that fails: the heap and the
container at the moment the failure propagates to the caller, together with
the destination-block slots that were constructed during the attempt and
those that were destroyed again before propagation. -/
structure GrowAttempt (α : Type) where
  heap : Heap α
  vec : Vector α
  destConstructed : List Nat
  destDestroyed : List Nat

/-- First index `i < count` at which the oracle reports a failure. -/
def firstFailIdx (count : Nat) (failAt : Nat → Bool) : Option Nat :=
  (List.range count).find? failAt

/-- `PushBack(Type&&)` on the reallocating path, for an element type whose
relocation takes the `uninitialized_copy_n` branch of
`SafeInitializedRawMemory`, with explicit failure oracles: `allocOk = false`
makes the `RawMemory` constructor fail (`OutOfMemory`); `copyFailAt i = true`
makes the copy-construction of source element `i` fail.  The source order is:
allocate `new_data`; placement-`new` the new value at slot `size_` of
`new_data`; `uninitialized_copy_n(data_.GetAddress(), size_,
new_data.GetAddress())` — on a failure at element `i` it destroys the `i`
copies it made itself and rethrows, while the element placement-`new`ed at
slot `size_` is destroyed by nobody (`new_data`'s destructor only deallocates
the raw bytes); `data_` and `size_` are only modified after the copies
succeed. -/
def Vector.PushBackGrowTry {α : Type} (allocOk : Bool) (copyFailAt : Nat → Bool)
    (h : Heap α) (v : Vector α) (x : α) :
    Except (GrowAttempt α) (Heap α × Vector α) :=
  if !allocOk then Except.error ⟨h, v, [], []⟩
  else
    let p := RawMemory.create h (if v.size = 0 then 1 else v.size * 2)
    match p.2.buffer with
    | none => Except.error ⟨h, v, [], []⟩
    | some b =>
      match firstFailIdx v.size copyFailAt with
      | some i =>
        Except.error
          ⟨setBlock p.1 b [], v, v.size :: List.range i, List.range i⟩
      | none =>
        let h1 := setBlock p.1 b ((v.live h).take v.size ++ [x])
        let h2 := match v.data.buffer with
          | none => h1
          | some ob => setBlock h1 ob ((h1.mem ob).drop v.size)
        Except.ok (h2, ⟨p.2, v.size + 1⟩)

/-- Destination slots constructed during a failed growth attempt that were
never destroyed before the failure propagated. -/
def leakedSlots {α : Type} (g : GrowAttempt α) : List Nat :=
  g.destConstructed.filter (fun s => !(g.destDestroyed.contains s))

/-- The container state reported by a failed growth attempt. -/
def growTryVec {α : Type} (r : Except (GrowAttempt α) (Heap α × Vector α)) :
    Option (Vector α) :=
  match r with
  | Except.error g => some g.vec
  | Except.ok _ => none

/-- The contents of block `b` at the moment a failed growth attempt
propagates. -/
def growTryMemAt {α : Type} (r : Except (GrowAttempt α) (Heap α × Vector α))
    (b : Nat) : Option (List α) :=
  match r with
  | Except.error g => some (g.heap.mem b)
  | Except.ok _ => none

/-- Leaked destination slots of a failed growth attempt. -/
def growTryLeaked {α : Type} (r : Except (GrowAttempt α) (Heap α × Vector α)) :
    Option (List Nat) :=
  match r with
  | Except.error g => some (leakedSlots g)
  | Except.ok _ => none

/-- Destination slots constructed during a failed growth attempt. -/
def growTryConstructed {α : Type}
    (r : Except (GrowAttempt α) (Heap α × Vector α)) : Option (List Nat) :=
  match r with
  | Except.error g => some g.destConstructed
  | Except.ok _ => none

/-- The mutating public operations, used to state deep-copy independence. -/
inductive VecOp (α : Type) where
  | push (x : α)
  | pop
  | reserve (n : Nat)
  | resize (n : Nat)
  | emplace (i : Nat) (x : α)
  | erase (i : Nat)

/-- Apply one mutating operation to a heap/vector pair. -/
def applyOp {α : Type} [Inhabited α] (p : Heap α × Vector α) (op : VecOp α) :
    Heap α × Vector α :=
  match op with
  | VecOp.push x => Vector.PushBack p.1 p.2 x
  | VecOp.pop => Vector.PopBack p.1 p.2
  | VecOp.reserve n => Vector.Reserve p.1 p.2 n
  | VecOp.resize n => Vector.Resize p.1 p.2 n
  | VecOp.emplace i x =>
    let q := Vector.Emplace p.1 p.2 i x
    (q.1, q.2.1)
  | VecOp.erase i =>
    let q := Vector.Erase p.1 p.2 i
    (q.1, q.2.1)

/-- Apply a sequence of mutating operations. -/
def applyOps {α : Type} [Inhabited α] (p : Heap α × Vector α)
    (ops : List (VecOp α)) : Heap α × Vector α :=
  ops.foldl applyOp p

/-- Block `b` is allocated but not the one `v`'s storage lives in. -/
def blockSeparate {α : Type} (b : Nat) (h : Heap α) (v : Vector α) : Prop :=
  b < h.next ∧ v.data.buffer ≠ some b

/-- A sequence of `PushBack` calls. -/
def pushMany {α : Type} (h : Heap α) (v : Vector α) (xs : List α) :
    Heap α × Vector α :=
  xs.foldl (fun p x => Vector.PushBack p.1 p.2 x) (h, v)

/- Concrete states used by the evaluation theorems: a one-element vector
holding `5` in block `0` of a heap that has handed out exactly one block. -/

/-- A concrete heap whose only allocated block `0` holds the element `5`. -/
def hOne : Heap Nat := ⟨1, fun b => if b = 0 then [5] else []⟩

/-- A concrete vector of size 1, capacity 1, stored in block `0`. -/
def vOne : Vector Nat := ⟨⟨some 0, 1⟩, 1⟩

@[simp] theorem setBlock_next {α : Type} (h : Heap α) (b : Nat) (l : List α) :
    (setBlock h b l).next = h.next := rfl

@[simp] theorem setBlock_mem_self {α : Type} (h : Heap α) (b : Nat) (l : List α) :
    (setBlock h b l).mem b = l := by simp [setBlock]

theorem setBlock_mem_ne {α : Type} (h : Heap α) (b q : Nat) (l : List α)
    (hq : q ≠ b) : (setBlock h b l).mem q = h.mem q := by simp [setBlock, hq]

@[simp] theorem live_mk_some {α : Type} (h : Heap α) (b c s : Nat) :
    Vector.live h ⟨⟨some b, c⟩, s⟩ = h.mem b := rfl

@[simp] theorem live_mk_none {α : Type} (h : Heap α) (c s : Nat) :
    Vector.live h ⟨⟨none, c⟩, s⟩ = [] := rfl

theorem valid_mk_some {α : Type} (h : Heap α) (b c s : Nat) :
    Vector.valid h ⟨⟨some b, c⟩, s⟩ ↔
      ((h.mem b).length = s ∧ s ≤ c ∧ b < h.next) := Iff.rfl

theorem valid_mk_none {α : Type} (h : Heap α) (c s : Nat) :
    Vector.valid h ⟨⟨none, c⟩, s⟩ ↔ (0 = s ∧ s ≤ c ∧ c = 0) := Iff.rfl

theorem live_buffer_eq {α : Type} (h : Heap α) (v : Vector α) (b : Nat)
    (hb : v.data.buffer = some b) : v.live h = h.mem b := by
  simp [Vector.live, hb]

theorem live_pair_some {α : Type} (h : Heap α) (d : RawMemory α) (s b : Nat)
    (hb : d.buffer = some b) : Vector.live h ⟨d, s⟩ = h.mem b := by
  simp [Vector.live, hb]

theorem valid_pair_some {α : Type} (h : Heap α) (d : RawMemory α) (s b : Nat)
    (hb : d.buffer = some b) :
    Vector.valid h ⟨d, s⟩ ↔
      ((h.mem b).length = s ∧ s ≤ d.capacity ∧ b < h.next) := by
  simp [Vector.valid, Vector.live, hb]

theorem pushBack_grow_eq {α : Type} (h : Heap α) (v : Vector α) (x : α)
    (hcap : ¬ v.size < v.data.capacity) :
    Vector.PushBack h v x =
      (let hA : Heap α :=
         ⟨h.next + 1, fun q => if q = h.next then [] else h.mem q⟩
       let h1 := setBlock hA h.next ((v.live h).take v.size ++ [x])
       let h2 := match v.data.buffer with
         | none => h1
         | some ob => setBlock h1 ob ((h1.mem ob).drop v.size)
       (h2, ⟨⟨some h.next, if v.size = 0 then 1 else v.size * 2⟩, v.size + 1⟩)) := by
  have hk : ¬ (if v.size = 0 then 1 else v.size * 2) = 0 := by
    by_cases h0 : v.size = 0 <;> simp [h0] <;> omega
  simp only [Vector.PushBack, if_neg hcap, RawMemory.create, if_neg hk]

theorem pushBack_spec {α : Type} (h : Heap α) (v : Vector α) (x : α)
    (hv : v.valid h) :
    (Vector.PushBack h v x).2.live (Vector.PushBack h v x).1 = v.live h ++ [x] ∧
    (Vector.PushBack h v x).2.size = v.size + 1 ∧
    (Vector.PushBack h v x).2.valid (Vector.PushBack h v x).1 ∧
    (Vector.PushBack h v x).2.data.capacity =
      (if v.size < v.data.capacity then v.data.capacity
       else if v.size = 0 then 1 else v.size * 2) ∧
    h.next ≤ (Vector.PushBack h v x).1.next := by
  obtain ⟨hlen, hle, hbuf⟩ := hv
  by_cases hcap : v.size < v.data.capacity
  · cases hb : v.data.buffer with
    | none =>
      exfalso
      rw [hb] at hbuf
      omega
    | some b =>
      rw [hb] at hbuf
      have hlive : v.live h = h.mem b := live_buffer_eq h v b hb
      have htake : (h.mem b).take v.size = h.mem b := by
        apply List.take_of_length_le
        rw [← hlive, hlen]
      have hpb : Vector.PushBack h v x =
          (setBlock h b ((h.mem b).take v.size ++ [x]),
           ⟨v.data, v.size + 1⟩) := by
        simp only [Vector.PushBack, if_pos hcap, hb]
      refine ⟨?_, ?_, ?_, ?_, ?_⟩
      · rw [hpb, live_pair_some _ _ _ b hb, setBlock_mem_self, htake, hlive]
      · rw [hpb]
      · rw [hpb, valid_pair_some _ _ _ b hb]
        refine ⟨?_, by omega, ?_⟩
        · rw [setBlock_mem_self, htake]
          simp [← hlive, hlen]
        · simpa using hbuf
      · rw [hpb]
        simp [hcap]
      · rw [hpb]
        simp
  · have htake : (v.live h).take v.size = v.live h := by
      apply List.take_of_length_le
      omega
    have hpb := pushBack_grow_eq h v x hcap
    cases hb : v.data.buffer with
    | none =>
      have hc0 : v.data.capacity = 0 := by rw [hb] at hbuf; exact hbuf
      have hs0 : v.size = 0 := by omega
      have hl0 : v.live h = [] := by simp [Vector.live, hb]
      rw [hb] at hpb
      refine ⟨?_, ?_, ?_, ?_, ?_⟩
      · rw [hpb]
        simp [hl0]
      · rw [hpb]
      · rw [hpb]
        rw [valid_mk_some]
        refine ⟨by simp [hl0, hs0], by simp [hs0], by simp⟩
      · rw [hpb]
        simp [hcap]
      · rw [hpb]
        simp
    | some ob =>
      have hob : ob < h.next := by rw [hb] at hbuf; exact hbuf
      have hnb : ¬ h.next = ob := by omega
      rw [hb] at hpb
      refine ⟨?_, ?_, ?_, ?_, ?_⟩
      · rw [hpb]
        rw [live_mk_some, setBlock_mem_ne _ _ _ _ hnb, setBlock_mem_self,
          htake]
      · rw [hpb]
      · rw [hpb]
        rw [valid_mk_some]
        refine ⟨?_, ?_, ?_⟩
        · rw [setBlock_mem_ne _ _ _ _ hnb, setBlock_mem_self, htake]
          simp [hlen]
        · by_cases h0 : v.size = 0 <;> simp [h0] <;> omega
        · simp
      · rw [hpb]
        simp [hcap]
      · rw [hpb]
        simp

theorem reserve_grow_eq {α : Type} (h : Heap α) (v : Vector α) (k : Nat)
    (hk : ¬ k ≤ v.data.capacity) :
    Vector.Reserve h v k =
      (let hA : Heap α :=
         ⟨h.next + 1, fun q => if q = h.next then [] else h.mem q⟩
       let h1 := setBlock hA h.next ((v.live h).take v.size)
       let h2 := match v.data.buffer with
         | none => h1
         | some ob => setBlock h1 ob ((h1.mem ob).drop v.size)
       (h2, ⟨⟨some h.next, k⟩, v.size⟩)) := by
  have hk0 : ¬ k = 0 := by omega
  simp only [Vector.Reserve, if_neg hk, RawMemory.create, if_neg hk0]

theorem reserve_spec {α : Type} (h : Heap α) (v : Vector α) (k : Nat)
    (hv : v.valid h) :
    (k ≤ v.data.capacity → Vector.Reserve h v k = (h, v)) ∧
    (v.data.capacity < k → (Vector.Reserve h v k).2.data.capacity = k) ∧
    (Vector.Reserve h v k).2.size = v.size ∧
    (Vector.Reserve h v k).2.live (Vector.Reserve h v k).1 = v.live h ∧
    (Vector.Reserve h v k).2.valid (Vector.Reserve h v k).1 ∧
    v.data.capacity ≤ (Vector.Reserve h v k).2.data.capacity ∧
    h.next ≤ (Vector.Reserve h v k).1.next := by
  obtain ⟨hlen, hle, hbuf⟩ := hv
  by_cases hk : k ≤ v.data.capacity
  · have hrs : Vector.Reserve h v k = (h, v) := by
      simp only [Vector.Reserve, if_pos hk]
    rw [hrs]
    exact ⟨fun _ => rfl, by omega, rfl, rfl, ⟨hlen, hle, hbuf⟩, le_refl _,
      le_refl _⟩
  · have htake : (v.live h).take v.size = v.live h := by
      apply List.take_of_length_le
      omega
    have hrs := reserve_grow_eq h v k hk
    cases hb : v.data.buffer with
    | none =>
      have hl0 : v.live h = [] := by simp [Vector.live, hb]
      rw [hb] at hrs
      refine ⟨fun hc => absurd hc hk, ?_, ?_, ?_, ?_, ?_, ?_⟩
      · rw [hrs]
        exact fun _ => rfl
      · rw [hrs]
      · rw [hrs]
        simp [hl0]
      · rw [hrs]
        rw [valid_mk_some]
        refine ⟨by simp [hl0, ← hlen], by omega, by simp⟩
      · rw [hrs]
        simp
        omega
      · rw [hrs]
        simp
    | some ob =>
      have hob : ob < h.next := by rw [hb] at hbuf; exact hbuf
      have hnb : ¬ h.next = ob := by omega
      rw [hb] at hrs
      refine ⟨fun hc => absurd hc hk, ?_, ?_, ?_, ?_, ?_, ?_⟩
      · rw [hrs]
        exact fun _ => rfl
      · rw [hrs]
      · rw [hrs]
        rw [live_mk_some, setBlock_mem_ne _ _ _ _ hnb, setBlock_mem_self,
          htake]
      · rw [hrs]
        rw [valid_mk_some]
        refine ⟨?_, by omega, by simp⟩
        rw [setBlock_mem_ne _ _ _ _ hnb, setBlock_mem_self, htake, hlen]
      · rw [hrs]
        simp
        omega
      · rw [hrs]
        simp

theorem vOne_valid : vOne.valid hOne := by
  refine ⟨?_, ?_, ?_⟩ <;> simp [Vector.valid, Vector.live, vOne, hOne]

theorem emptyVec_valid {α : Type} (h : Heap α) :
    Vector.valid h (Vector.emptyVec (α := α)) := by
  refine ⟨?_, ?_, ?_⟩ <;> simp [Vector.valid, Vector.live, Vector.emptyVec]

theorem pushMany_cons {α : Type} (h : Heap α) (v : Vector α) (a : α)
    (as : List α) :
    pushMany h v (a :: as) =
      pushMany (Vector.PushBack h v a).1 (Vector.PushBack h v a).2 as := rfl

theorem pushMany_spec {α : Type} (xs : List α) :
    ∀ (h : Heap α) (v : Vector α), v.valid h →
      (pushMany h v xs).2.live (pushMany h v xs).1 = v.live h ++ xs ∧
      (pushMany h v xs).2.size = v.size + xs.length ∧
      (pushMany h v xs).2.valid (pushMany h v xs).1 := by
  induction xs with
  | nil =>
    intro h v hv
    exact ⟨by simp [pushMany], by simp [pushMany], by simpa [pushMany] using hv⟩
  | cons a as ih =>
    intro h v hv
    have hp := pushBack_spec h v a hv
    rw [pushMany_cons]
    obtain ⟨l1, l2, l3⟩ :=
      ih (Vector.PushBack h v a).1 (Vector.PushBack h v a).2 hp.2.2.1
    refine ⟨?_, ?_, l3⟩
    · rw [l1, hp.1]
      simp
    · rw [l2, hp.2.1]
      simp
      omega

theorem indexOf_cons_cons_ge_two {e0 e1 a : VecEvent} (l : List VecEvent)
    (h0 : e0 ≠ a) (h1 : e1 ≠ a) : 2 ≤ (e0 :: e1 :: l).indexOf a := by
  rw [List.indexOf_cons_ne _ h0, List.indexOf_cons_ne _ h1]
  omega

/-- C4: relocation of live elements into a new block uses move-construction
exactly when the element type's move constructor is non-throwing or the type
is not copy-constructible, and copy-construction otherwise; every element of
a relocated range is constructed with that one statically chosen kind (the
choice depends only on the two type traits, not on the elements), and a type
with a non-throwing move constructor never gets a copy-construction. -/
theorem safeInitializedRawMemory_mode (nothrowMove copyConstructible : Bool)
    (count : Nat) :
    (SafeInitializedRawMemoryKind nothrowMove copyConstructible =
        RelocKind.moveCons ↔
      (nothrowMove = true ∨ copyConstructible = false)) ∧
    (∀ e ∈ SafeInitializedRawMemoryEvents nothrowMove copyConstructible count,
      e = SafeInitializedRawMemoryKind nothrowMove copyConstructible) ∧
    (nothrowMove = true →
      RelocKind.copyCons ∉
        SafeInitializedRawMemoryEvents nothrowMove copyConstructible count) := by
  refine ⟨?_, ?_, ?_⟩
  · cases nothrowMove <;> cases copyConstructible <;>
      simp [SafeInitializedRawMemoryKind]
  · intro e he
    cases nothrowMove <;> cases copyConstructible <;>
      simp only [SafeInitializedRawMemoryEvents, SafeInitializedRawMemoryKind,
        stdUninitMoveEvents, stdUninitCopyEvents, Bool.not_true, Bool.not_false,
        Bool.false_or, Bool.true_or, Bool.or_false, Bool.or_true, if_true,
        if_false, ite_true, ite_false] at he ⊢ <;>
      exact List.eq_of_mem_replicate he
  · intro hnt e
    subst hnt
    cases copyConstructible <;>
      simp only [SafeInitializedRawMemoryEvents, SafeInitializedRawMemoryKind,
        Bool.true_or, ite_true, stdUninitMoveEvents] at e <;>
      exact absurd (List.eq_of_mem_replicate e) (by simp)

theorem safeInitializedRawMemory_mode_witness :
    SafeInitializedRawMemoryKind true true = RelocKind.moveCons ∧
    RelocKind.copyCons ∉ SafeInitializedRawMemoryEvents true true 2 :=
  ⟨((safeInitializedRawMemory_mode true true 2).1).mpr (Or.inl rfl),
   (safeInitializedRawMemory_mode true true 2).2.2 rfl⟩

/-- C5: `PushBack` with spare capacity constructs the element in the next
free slot of the same storage and leaves the capacity unchanged; with
`size == capacity` it grows the capacity to `max(1, 2 * capacity)`, appends
the value, and its event trace places the construction of the new element
(at its final index `size_`) strictly before every relocation event. -/
theorem pushBack_growth_policy {α : Type} (h : Heap α) (v : Vector α)
    (x : α) (hv : v.valid h) :
    (Vector.PushBack h v x).2.live (Vector.PushBack h v x).1 =
      v.live h ++ [x] ∧
    (Vector.PushBack h v x).2.Size = v.Size + 1 ∧
    (v.Size < v.Capacity →
      (Vector.PushBack h v x).2.Capacity = v.Capacity ∧
      (Vector.PushBack h v x).2.data = v.data ∧
      Vector.PushBackEvents v = [VecEvent.constructAt v.size]) ∧
    (v.Size = v.Capacity →
      (Vector.PushBack h v x).2.Capacity = max 1 (2 * v.Capacity) ∧
      (Vector.PushBackEvents v).indexOf (VecEvent.constructAt v.size) = 1 ∧
      (∀ i, VecEvent.relocateFrom i ∈ Vector.PushBackEvents v →
        2 ≤ (Vector.PushBackEvents v).indexOf (VecEvent.relocateFrom i)) ∧
      (Vector.PushBackEvents v).drop (2 + v.size) =
        [VecEvent.destroyOldAll, VecEvent.swapStorage]) := by
  obtain ⟨hlive, hsize, _, hcap, _⟩ := pushBack_spec h v x hv
  refine ⟨hlive, hsize, ?_, ?_⟩
  · intro hlt
    have hlt' : v.size < v.data.capacity := hlt
    refine ⟨?_, ?_, ?_⟩
    · rw [show (Vector.PushBack h v x).2.Capacity =
          (Vector.PushBack h v x).2.data.capacity from rfl, hcap, if_pos hlt']
      rfl
    · obtain ⟨hl, hle, hbuf⟩ := hv
      cases hb : v.data.buffer with
      | none =>
        exfalso
        rw [hb] at hbuf
        omega
      | some b =>
        have : Vector.PushBack h v x =
            (setBlock h b ((h.mem b).take v.size ++ [x]),
             ⟨v.data, v.size + 1⟩) := by
          simp only [Vector.PushBack, if_pos hlt', hb]
        rw [this]
    · simp [Vector.PushBackEvents, hlt']
  · intro heq
    have heq' : v.size = v.data.capacity := heq
    have hnlt : ¬ v.size < v.data.capacity := by omega
    have hev : Vector.PushBackEvents v =
        VecEvent.allocBlockOf (if v.size = 0 then 1 else v.size * 2) ::
        VecEvent.constructAt v.size ::
        ((List.range v.size).map VecEvent.relocateFrom ++
          [VecEvent.destroyOldAll, VecEvent.swapStorage]) := by
      simp [Vector.PushBackEvents, hnlt]
    refine ⟨?_, ?_, ?_, ?_⟩
    · rw [show (Vector.PushBack h v x).2.Capacity =
          (Vector.PushBack h v x).2.data.capacity from rfl, hcap, if_neg hnlt]
      show (if v.size = 0 then 1 else v.size * 2) = max 1 (2 * v.Capacity)
      rw [show v.Capacity = v.data.capacity from rfl, ← heq']
      by_cases h0 : v.size = 0
      · rw [if_pos h0, h0]
        simp
      · rw [if_neg h0]
        omega
    · rw [hev, List.indexOf_cons_ne _ (by simp), List.indexOf_cons_self]
    · intro i _
      rw [hev]
      exact indexOf_cons_cons_ge_two _ (by simp) (by simp)
    · rw [hev, ← List.drop_drop]
      show ((List.range v.size).map VecEvent.relocateFrom ++
        [VecEvent.destroyOldAll, VecEvent.swapStorage]).drop v.size = _
      apply List.drop_left'
      simp

theorem pushBack_growth_policy_witness :
    (Vector.PushBack hOne vOne 7).2.live (Vector.PushBack hOne vOne 7).1 =
      [5, 7] ∧
    (Vector.PushBack hOne vOne 7).2.Size = 2 ∧
    (Vector.PushBack hOne vOne 7).2.Capacity = max 1 (2 * vOne.Capacity) :=
  ⟨by rw [(pushBack_growth_policy hOne vOne 7 vOne_valid).1]; rfl, rfl,
   ((pushBack_growth_policy hOne vOne 7 vOne_valid).2.2.2 rfl).1⟩

/-- C6: pushing the values of `xs` one by one into an empty vector yields
`Size() == xs.length`, with the i-th pushed value stored at index `i`. -/
theorem pushMany_from_empty_order {α : Type} [Inhabited α] (h : Heap α)
    (xs : List α) :
    (pushMany h Vector.emptyVec xs).2.Size = xs.length ∧
    (pushMany h Vector.emptyVec xs).2.live (pushMany h Vector.emptyVec xs).1 =
      xs ∧
    ∀ i, i < xs.length →
      ((pushMany h Vector.emptyVec xs).2.live
          (pushMany h Vector.emptyVec xs).1).getD i default =
        xs.getD i default := by
  obtain ⟨l1, l2, _⟩ := pushMany_spec xs h Vector.emptyVec (emptyVec_valid h)
  have hl : (pushMany h Vector.emptyVec xs).2.live
      (pushMany h Vector.emptyVec xs).1 = xs := by
    rw [l1]
    simp [Vector.emptyVec, Vector.live]
  refine ⟨?_, hl, ?_⟩
  · rw [show (pushMany h Vector.emptyVec xs).2.Size =
        (pushMany h Vector.emptyVec xs).2.size from rfl, l2]
    simp [Vector.emptyVec]
  · intro i _
    rw [hl]

/-- A heap with no allocated blocks. -/
def hEmpty : Heap Nat := ⟨0, fun _ => []⟩

theorem pushMany_from_empty_order_witness :
    (pushMany hEmpty Vector.emptyVec [1, 2, 3]).2.Size = 3 ∧
    ((pushMany hEmpty Vector.emptyVec [1, 2, 3]).2.live
        (pushMany hEmpty Vector.emptyVec [1, 2, 3]).1).getD 1 default =
      [1, 2, 3].getD 1 default :=
  ⟨(pushMany_from_empty_order hEmpty [1, 2, 3]).1,
   (pushMany_from_empty_order hEmpty [1, 2, 3]).2.2 1 (by decide)⟩

/-- C7: `Reserve(k)` is a no-op when `k <= Capacity()`, otherwise sets the
capacity to exactly `k`; it never decreases the capacity, never changes
`Size()` or the values and order of the live elements, and afterwards
`Capacity() >= k`. -/
theorem reserve_contract {α : Type} (h : Heap α) (v : Vector α) (k : Nat)
    (hv : v.valid h) :
    (k ≤ v.Capacity → Vector.Reserve h v k = (h, v)) ∧
    (v.Capacity < k → (Vector.Reserve h v k).2.Capacity = k) ∧
    v.Capacity ≤ (Vector.Reserve h v k).2.Capacity ∧
    (Vector.Reserve h v k).2.Size = v.Size ∧
    (Vector.Reserve h v k).2.live (Vector.Reserve h v k).1 = v.live h ∧
    k ≤ (Vector.Reserve h v k).2.Capacity := by
  obtain ⟨c1, c2, c3, c4, _, c6, _⟩ := reserve_spec h v k hv
  refine ⟨c1, c2, c6, c3, c4, ?_⟩
  by_cases hk : k ≤ v.data.capacity
  · rw [c1 hk]
    exact hk
  · have hc := c2 (by omega)
    show k ≤ (Vector.Reserve h v k).2.data.capacity
    omega

theorem reserve_contract_witness :
    (Vector.Reserve hOne vOne 3).2.Capacity = 3 ∧
    (Vector.Reserve hOne vOne 3).2.Size = 1 ∧
    (Vector.Reserve hOne vOne 3).2.live (Vector.Reserve hOne vOne 3).1 =
      [5] :=
  ⟨(reserve_contract hOne vOne 3 vOne_valid).2.1 (by decide),
   (reserve_contract hOne vOne 3 vOne_valid).2.2.2.1,
   by rw [(reserve_contract hOne vOne 3 vOne_valid).2.2.2.2.1]; rfl⟩

theorem emplace_shift_insert {α : Type} [Inhabited α] (l : List α) (x : α)
    (index : Nat) (hidx : index < l.length) :
    (stdMoveBackward (l ++ [l.getD (l.length - 1) default]) index
        (l.length - 1) l.length).set index x =
      l.take index ++ x :: l.drop index := by
  have hdne : l.drop index ≠ [] := by
    simp only [ne_eq, List.drop_eq_nil_iff, not_le]
    omega
  have ha : l.getD (l.length - 1) default = (l.drop index).getLast hdne := by
    rw [List.getD_eq_getElem l default (by omega), List.getLast_eq_getElem]
    rw [List.getElem_drop]
    congr 1
    simp only [List.length_drop]
    omega
  have hmb : stdMoveBackward (l ++ [l.getD (l.length - 1) default]) index
      (l.length - 1) l.length = l.take (index + 1) ++ l.drop index := by
    unfold stdMoveBackward
    have e1 : l.length - ((l.length - 1) - index) = index + 1 := by omega
    rw [e1]
    rw [List.take_append_of_le_length (by omega)]
    rw [List.drop_append_of_le_length (by omega)]
    rw [List.take_append_of_le_length (by simp only [List.length_drop]; omega)]
    rw [List.drop_left' rfl]
    rw [List.append_assoc, ha]
    have e2 : (l.length - 1) - index = (l.drop index).length - 1 := by
      simp only [List.length_drop]
      omega
    rw [e2, ← List.dropLast_eq_take, List.dropLast_append_getLast hdne]
  rw [hmb, List.set_eq_take_append_cons_drop]
  have hlen2 : index < (l.take (index + 1) ++ l.drop index).length := by
    simp only [List.length_append, List.length_take, List.length_drop]
    omega
  rw [if_pos hlen2]
  congr 1
  · rw [List.take_append_of_le_length (by simp only [List.length_take]; omega),
      List.take_take]
    congr 1
    omega
  · congr 1
    apply List.drop_left'
    simp only [List.length_take]
    omega

/-- C9: `Emplace(pos, args...)` with `index = pos - begin() <= size` grows
the size by 1, keeps all pre-existing elements in relative order, and places
the new value at `index`; on the non-reallocating path with `pos != end()`
the block contents are obtained exactly by constructing the last element one
slot past the end, `move_backward`-shifting `[index, size - 1)` right by one,
and assigning the new value into slot `index`. -/
theorem emplace_insert_contract {α : Type} [Inhabited α] (h : Heap α)
    (v : Vector α) (index : Nat) (x : α) (hv : v.valid h)
    (hidx : index ≤ v.size) :
    (Vector.Emplace h v index x).2.1.Size = v.Size + 1 ∧
    (Vector.Emplace h v index x).2.1.live (Vector.Emplace h v index x).1 =
      (v.live h).take index ++ x :: (v.live h).drop index ∧
    (Vector.Emplace h v index x).2.2 = index ∧
    (v.size < v.data.capacity → index ≠ v.size →
      ∀ b, v.data.buffer = some b →
        (Vector.Emplace h v index x).1.mem b =
          (stdMoveBackward ((h.mem b).take v.size ++
              [(h.mem b).getD (v.size - 1) default]) index (v.size - 1)
              v.size).set index x) := by
  obtain ⟨hlen, hle, hbuf⟩ := hv
  by_cases hlt : v.size < v.data.capacity
  · cases hb : v.data.buffer with
    | none =>
      exfalso
      rw [hb] at hbuf
      omega
    | some b =>
      rw [hb] at hbuf
      have hlive : v.live h = h.mem b := live_buffer_eq h v b hb
      have hlenb : (h.mem b).length = v.size := by rw [← hlive, hlen]
      have htake : (h.mem b).take v.size = h.mem b := by
        apply List.take_of_length_le
        omega
      by_cases hie : index = v.size
      · have hE : Vector.Emplace h v index x =
            (setBlock h b ((h.mem b).take v.size ++ [x]),
             ⟨v.data, v.size + 1⟩, index) := by
          simp only [Vector.Emplace, if_pos hlt, Vector.EmplaceWithoutReallocate,
            hb, hie, ne_eq, not_true_eq_false, if_false, ite_false]
        refine ⟨?_, ?_, ?_, ?_⟩
        · rw [hE]
          rfl
        · rw [hE, live_pair_some _ _ _ b hb, setBlock_mem_self, htake, hlive,
            hie]
          rw [List.take_of_length_le (by omega), List.drop_eq_nil_of_le (by omega)]
        · rw [hE]
        · intro _ hne
          exact absurd hie hne
      · have hE : Vector.Emplace h v index x =
            (setBlock h b
              ((stdMoveBackward ((h.mem b).take v.size ++
                  [(h.mem b).getD (v.size - 1) default]) index (v.size - 1)
                  v.size).set index x),
             ⟨v.data, v.size + 1⟩, index) := by
          simp only [Vector.Emplace, if_pos hlt, Vector.EmplaceWithoutReallocate,
            hb, hie, ne_eq, not_false_eq_true, if_true, ite_true]
        have hkey : (stdMoveBackward ((h.mem b).take v.size ++
              [(h.mem b).getD (v.size - 1) default]) index (v.size - 1)
              v.size).set index x =
            (h.mem b).take index ++ x :: (h.mem b).drop index := by
          rw [htake]
          have := emplace_shift_insert (h.mem b) x index (by omega)
          rw [hlenb] at this
          exact this
        refine ⟨?_, ?_, ?_, ?_⟩
        · rw [hE]
          rfl
        · rw [hE, live_pair_some _ _ _ b hb, setBlock_mem_self, hkey, hlive]
        · rw [hE]
        · intro _ _ b' hb'
          have hbb : b = b' := Option.some.inj hb'
          subst hbb
          rw [hE, setBlock_mem_self]
  · have htake : (v.live h).take v.size = v.live h := by
      apply List.take_of_length_le
      omega
    have hdrop : ((v.live h).drop index).take (v.size - index) =
        (v.live h).drop index := by
      apply List.take_of_length_le
      simp only [List.length_drop]
      omega
    have hk : ¬ (if v.size = 0 then 1 else v.size * 2) = 0 := by
      by_cases h0 : v.size = 0 <;> simp [h0] <;> omega
    have hE : Vector.Emplace h v index x =
        (let hA : Heap α :=
           ⟨h.next + 1, fun q => if q = h.next then [] else h.mem q⟩
         let h1 := setBlock hA h.next
           ((v.live h).take index ++ [x] ++
             ((v.live h).drop index).take (v.size - index))
         let h2 := match v.data.buffer with
           | none => h1
           | some ob => setBlock h1 ob ((h1.mem ob).drop v.size)
         (h2, ⟨⟨some h.next, if v.size = 0 then 1 else v.size * 2⟩,
           v.size + 1⟩, index)) := by
      simp only [Vector.Emplace, if_neg hlt, Vector.EmplaceWithReallocate,
        RawMemory.create, if_neg hk]
    cases hb : v.data.buffer with
    | none =>
      rw [hb] at hE
      refine ⟨?_, ?_, ?_, ?_⟩
      · rw [hE]
        rfl
      · rw [hE, live_pair_some _ _ _ h.next rfl, setBlock_mem_self, hdrop]
        simp
      · rw [hE]
      · intro hc
        exact absurd hc hlt
    | some ob =>
      have hob : ob < h.next := by rw [hb] at hbuf; exact hbuf
      have hnb : ¬ h.next = ob := by omega
      rw [hb] at hE
      refine ⟨?_, ?_, ?_, ?_⟩
      · rw [hE]
        rfl
      · rw [hE, live_pair_some _ _ _ h.next rfl,
          setBlock_mem_ne _ _ _ _ hnb, setBlock_mem_self, hdrop]
        simp
      · rw [hE]
      · intro hc
        exact absurd hc hlt

/-- A concrete heap whose only allocated block `0` holds `[5, 6]`. -/
def hTwo : Heap Nat := ⟨1, fun b => if b = 0 then [5, 6] else []⟩

/-- A concrete vector of size 2, capacity 4, stored in block `0`. -/
def vTwo : Vector Nat := ⟨⟨some 0, 4⟩, 2⟩

theorem vTwo_valid : vTwo.valid hTwo := by
  refine ⟨?_, ?_, ?_⟩ <;> simp [Vector.valid, Vector.live, vTwo, hTwo]

theorem emplace_insert_contract_witness :
    (Vector.Emplace hTwo vTwo 1 9).2.1.Size = 3 ∧
    (Vector.Emplace hTwo vTwo 1 9).2.1.live (Vector.Emplace hTwo vTwo 1 9).1 =
      [5, 9, 6] ∧
    (Vector.Emplace hTwo vTwo 1 9).2.2 = 1 :=
  ⟨(emplace_insert_contract hTwo vTwo 1 9 vTwo_valid (by decide)).1,
   by rw [(emplace_insert_contract hTwo vTwo 1 9 vTwo_valid (by decide)).2.1]
      rfl,
   (emplace_insert_contract hTwo vTwo 1 9 vTwo_valid (by decide)).2.2.1⟩

/-- C3: on the reallocating `PushBack` path, an `OutOfMemory` failure
(second half of the conjunction below) leaves the container handle, its
block contents and the destination untouched; a copy-construction failure
during relocation (first half) also leaves the container's prior state
unchanged — but the claim's cleanup half fails: the new element, already
placement-`new`ed into the destination block at slot `size_ = 1`, is never
destroyed before the failure propagates, so slot `1` of the destination is
leaked (`uninitialized_copy_n` only destroys the copies it made itself). -/
theorem pushBackGrowTry_copy_fail_leaks :
    growTryVec (Vector.PushBackGrowTry true (fun _ => true) hOne vOne 7) =
      some vOne ∧
    growTryMemAt (Vector.PushBackGrowTry true (fun _ => true) hOne vOne 7) 0 =
      some [5] ∧
    growTryConstructed
        (Vector.PushBackGrowTry true (fun _ => true) hOne vOne 7) =
      some [1] ∧
    growTryLeaked (Vector.PushBackGrowTry true (fun _ => true) hOne vOne 7) =
      some [1] ∧
    growTryVec (Vector.PushBackGrowTry false (fun _ => true) hOne vOne 7) =
      some vOne ∧
    growTryMemAt (Vector.PushBackGrowTry false (fun _ => true) hOne vOne 7) 0 =
      some [5] ∧
    growTryConstructed
        (Vector.PushBackGrowTry false (fun _ => true) hOne vOne 7) =
      some [] := by
  refine ⟨rfl, rfl, rfl, rfl, rfl, rfl, rfl⟩

/-- C10: self-assignment — both `v = v` (copy) and `v = std::move(v)` — is a
no-op thanks to the `this != &rhs` test: target and heap are unchanged, and
no element is constructed, destroyed or assigned. -/
theorem selfAssign_noop {α : Type} (h : Heap α) (v : Vector α) :
    Vector.moveAssign true v v = (v, v) ∧
    Vector.copyAssign true h v v = (h, v) ∧
    Vector.copyAssignEvents true v v = [] ∧
    Vector.moveAssignEvents true v v = [] :=
  ⟨rfl, rfl, rfl, rfl⟩

/-- C1: move-construction is claimed to transfer storage and size and to
leave the source empty (`Size() == 0`, null storage).  Evaluating the code's
move constructor on a one-element vector shows the storage is transferred
(the destination holds the original element, the source's buffer is null),
but the source's `Size()` is still `1`, not `0`: `other.size_` is never
reset. -/
theorem moveCtor_transfers_storage_but_source_size_stale :
    (Vector.moveCtor vOne).1.data = vOne.data ∧
    (Vector.moveCtor vOne).1.Size = 1 ∧
    (Vector.moveCtor vOne).1.live hOne = [5] ∧
    (Vector.moveCtor vOne).2.data.buffer = none ∧
    (Vector.moveCtor vOne).2.data.capacity = 0 ∧
    ¬ (Vector.moveCtor vOne).2.Size = 0 := by
  refine ⟨rfl, rfl, ?_, rfl, rfl, by decide⟩
  simp [Vector.moveCtor, Vector.live, vOne, hOne]

/-- C2: `size <= capacity` is claimed to hold after every public operation.
The move constructor breaks it on the source object: starting from a valid
one-element vector (which satisfies the invariant), the moved-from source is
left with `size_ = 1` but a null buffer of capacity `0`. -/
theorem moveCtor_source_violates_size_le_capacity :
    Vector.sizeLeCapacity vOne ∧
    ¬ Vector.sizeLeCapacity (Vector.moveCtor vOne).2 := by
  constructor
  · unfold Vector.sizeLeCapacity
    decide
  · unfold Vector.sizeLeCapacity Vector.moveCtor
    decide

theorem bumpHeap_mem {α : Type} (h : Heap α) (b : Nat) (hb : ¬ b = h.next) :
    (Heap.mk (h.next + 1) (fun q => if q = h.next then [] else h.mem q)).mem b =
      h.mem b := by
  simp [hb]

theorem buffer_ne_symm {α : Type} {v : Vector α} {b ob : Nat}
    (ho : v.data.buffer ≠ some b) (hb : v.data.buffer = some ob) :
    ¬ b = ob :=
  fun he => ho (hb.trans (congrArg some he.symm))

theorem pushBack_frame {α : Type} (h : Heap α) (v : Vector α) (x : α) (b : Nat)
    (hb : b < h.next) (ho : v.data.buffer ≠ some b) :
    (Vector.PushBack h v x).1.mem b = h.mem b ∧
    b < (Vector.PushBack h v x).1.next ∧
    (Vector.PushBack h v x).2.data.buffer ≠ some b := by
  by_cases hcap : v.size < v.data.capacity
  · cases hb2 : v.data.buffer with
    | none =>
      have hpb : Vector.PushBack h v x = (h, ⟨v.data, v.size + 1⟩) := by
        simp only [Vector.PushBack, if_pos hcap, hb2]
      rw [hpb]
      exact ⟨rfl, hb, ho⟩
    | some ob =>
      have hne : ¬ b = ob := buffer_ne_symm ho hb2
      have hpb : Vector.PushBack h v x =
          (setBlock h ob ((h.mem ob).take v.size ++ [x]),
           ⟨v.data, v.size + 1⟩) := by
        simp only [Vector.PushBack, if_pos hcap, hb2]
      rw [hpb]
      exact ⟨setBlock_mem_ne _ _ _ _ hne, hb, ho⟩
  · have hbn : ¬ b = h.next := by omega
    have hpb := pushBack_grow_eq h v x hcap
    cases hb2 : v.data.buffer with
    | none =>
      rw [hb2] at hpb
      rw [hpb]
      refine ⟨?_, ?_, ?_⟩
      · rw [setBlock_mem_ne _ _ _ _ hbn]
        exact bumpHeap_mem h b hbn
      · show b < h.next + 1
        omega
      · simp only [ne_eq, Option.some.injEq]
        omega
    | some ob =>
      have hne : ¬ b = ob := buffer_ne_symm ho hb2
      rw [hb2] at hpb
      rw [hpb]
      refine ⟨?_, ?_, ?_⟩
      · rw [setBlock_mem_ne _ _ _ _ hne, setBlock_mem_ne _ _ _ _ hbn]
        exact bumpHeap_mem h b hbn
      · show b < h.next + 1
        omega
      · simp only [ne_eq, Option.some.injEq]
        omega

theorem reserve_frame {α : Type} (h : Heap α) (v : Vector α) (k b : Nat)
    (hb : b < h.next) (ho : v.data.buffer ≠ some b) :
    (Vector.Reserve h v k).1.mem b = h.mem b ∧
    b < (Vector.Reserve h v k).1.next ∧
    (Vector.Reserve h v k).2.data.buffer ≠ some b := by
  by_cases hk : k ≤ v.data.capacity
  · have hrs : Vector.Reserve h v k = (h, v) := by
      simp only [Vector.Reserve, if_pos hk]
    rw [hrs]
    exact ⟨rfl, hb, ho⟩
  · have hbn : ¬ b = h.next := by omega
    have hrs := reserve_grow_eq h v k hk
    cases hb2 : v.data.buffer with
    | none =>
      rw [hb2] at hrs
      rw [hrs]
      refine ⟨?_, ?_, ?_⟩
      · rw [setBlock_mem_ne _ _ _ _ hbn]
        exact bumpHeap_mem h b hbn
      · show b < h.next + 1
        omega
      · simp only [ne_eq, Option.some.injEq]
        omega
    | some ob =>
      have hne : ¬ b = ob := buffer_ne_symm ho hb2
      rw [hb2] at hrs
      rw [hrs]
      refine ⟨?_, ?_, ?_⟩
      · rw [setBlock_mem_ne _ _ _ _ hne, setBlock_mem_ne _ _ _ _ hbn]
        exact bumpHeap_mem h b hbn
      · show b < h.next + 1
        omega
      · simp only [ne_eq, Option.some.injEq]
        omega

theorem reserve_cap_ge {α : Type} (h : Heap α) (v : Vector α) (k : Nat) :
    k ≤ (Vector.Reserve h v k).2.data.capacity := by
  by_cases hk : k ≤ v.data.capacity
  · have hrs : Vector.Reserve h v k = (h, v) := by
      simp only [Vector.Reserve, if_pos hk]
    rw [hrs]
    exact hk
  · have hrs := reserve_grow_eq h v k hk
    cases hb : v.data.buffer with
    | none =>
      rw [hb] at hrs
      rw [hrs]
    | some ob =>
      rw [hb] at hrs
      rw [hrs]

theorem popBack_frame {α : Type} (h : Heap α) (v : Vector α) (b : Nat)
    (hb : b < h.next) (ho : v.data.buffer ≠ some b) :
    (Vector.PopBack h v).1.mem b = h.mem b ∧
    b < (Vector.PopBack h v).1.next ∧
    (Vector.PopBack h v).2.data.buffer ≠ some b := by
  cases hb2 : v.data.buffer with
  | none =>
    have hpp : Vector.PopBack h v = (h, ⟨v.data, v.size - 1⟩) := by
      simp only [Vector.PopBack, hb2]
    rw [hpp]
    exact ⟨rfl, hb, ho⟩
  | some ob =>
    have hne : ¬ b = ob := buffer_ne_symm ho hb2
    have hpp : Vector.PopBack h v =
        (setBlock h ob ((h.mem ob).take (v.size - 1)),
         ⟨v.data, v.size - 1⟩) := by
      simp only [Vector.PopBack, hb2]
    rw [hpp]
    exact ⟨setBlock_mem_ne _ _ _ _ hne, hb, ho⟩

theorem erase_frame {α : Type} (h : Heap α) (v : Vector α) (i b : Nat)
    (hb : b < h.next) (ho : v.data.buffer ≠ some b) :
    (Vector.Erase h v i).1.mem b = h.mem b ∧
    b < (Vector.Erase h v i).1.next ∧
    (Vector.Erase h v i).2.1.data.buffer ≠ some b := by
  cases hb2 : v.data.buffer with
  | none =>
    have hpp : Vector.Erase h v i = (h, ⟨v.data, v.size - 1⟩, i) := by
      simp only [Vector.Erase, hb2]
    rw [hpp]
    exact ⟨rfl, hb, ho⟩
  | some ob =>
    have hne : ¬ b = ob := buffer_ne_symm ho hb2
    have hpp : Vector.Erase h v i =
        (setBlock h ob ((stdMoveForward (h.mem ob) (i + 1) v.size i).take
          (v.size - 1)), ⟨v.data, v.size - 1⟩, i) := by
      simp only [Vector.Erase, hb2]
    rw [hpp]
    exact ⟨setBlock_mem_ne _ _ _ _ hne, hb, ho⟩

theorem emplace_frame {α : Type} [Inhabited α] (h : Heap α) (v : Vector α)
    (i : Nat) (x : α) (b : Nat) (hb : b < h.next)
    (ho : v.data.buffer ≠ some b) :
    (Vector.Emplace h v i x).1.mem b = h.mem b ∧
    b < (Vector.Emplace h v i x).1.next ∧
    (Vector.Emplace h v i x).2.1.data.buffer ≠ some b := by
  by_cases hcap : v.size < v.data.capacity
  · cases hb2 : v.data.buffer with
    | none =>
      have he : Vector.Emplace h v i x = (h, ⟨v.data, v.size + 1⟩, i) := by
        simp only [Vector.Emplace, if_pos hcap,
          Vector.EmplaceWithoutReallocate, hb2]
      rw [he]
      exact ⟨rfl, hb, ho⟩
    | some ob =>
      have hne : ¬ b = ob := buffer_ne_symm ho hb2
      have hgen : ∀ L : List α, (setBlock h ob L).mem b = h.mem b ∧
          b < (setBlock h ob L).next ∧
          (⟨v.data, v.size + 1⟩ : Vector α).data.buffer ≠ some b :=
        fun L => ⟨setBlock_mem_ne _ _ _ _ hne, hb, ho⟩
      simp only [Vector.Emplace, if_pos hcap,
        Vector.EmplaceWithoutReallocate, hb2]
      split_ifs with h1
      · exact hgen _
      · exact hgen _
  · have hbn : ¬ b = h.next := by omega
    have hk : ¬ (if v.size = 0 then 1 else v.size * 2) = 0 := by
      by_cases h0 : v.size = 0 <;> simp [h0] <;> omega
    have he : Vector.Emplace h v i x =
        (let hA : Heap α :=
           ⟨h.next + 1, fun q => if q = h.next then [] else h.mem q⟩
         let h1 := setBlock hA h.next
           ((v.live h).take i ++ [x] ++ ((v.live h).drop i).take (v.size - i))
         let h2 := match v.data.buffer with
           | none => h1
           | some ob => setBlock h1 ob ((h1.mem ob).drop v.size)
         (h2, ⟨⟨some h.next, if v.size = 0 then 1 else v.size * 2⟩,
           v.size + 1⟩, i)) := by
      simp only [Vector.Emplace, if_neg hcap, Vector.EmplaceWithReallocate,
        RawMemory.create, if_neg hk]
    cases hb2 : v.data.buffer with
    | none =>
      rw [hb2] at he
      rw [he]
      refine ⟨?_, ?_, ?_⟩
      · rw [setBlock_mem_ne _ _ _ _ hbn]
        exact bumpHeap_mem h b hbn
      · show b < h.next + 1
        omega
      · simp only [ne_eq, Option.some.injEq]
        omega
    | some ob =>
      have hne : ¬ b = ob := buffer_ne_symm ho hb2
      rw [hb2] at he
      rw [he]
      refine ⟨?_, ?_, ?_⟩
      · rw [setBlock_mem_ne _ _ _ _ hne, setBlock_mem_ne _ _ _ _ hbn]
        exact bumpHeap_mem h b hbn
      · show b < h.next + 1
        omega
      · simp only [ne_eq, Option.some.injEq]
        omega

theorem resize_frame {α : Type} [Inhabited α] (h : Heap α) (v : Vector α)
    (n b : Nat) (hb : b < h.next) (ho : v.data.buffer ≠ some b) :
    (Vector.Resize h v n).1.mem b = h.mem b ∧
    b < (Vector.Resize h v n).1.next ∧
    (Vector.Resize h v n).2.data.buffer ≠ some b := by
  obtain ⟨r1, r2, r3⟩ := reserve_frame h v n b hb ho
  have hcap1 : n ≤ (Vector.Reserve h v n).2.data.capacity := reserve_cap_ge h v n
  have hdead : ¬ (Vector.Reserve h v n).2.data.capacity < n := by omega
  unfold Vector.Resize
  cases hbuf1 : (Vector.Reserve h v n).2.data.buffer with
  | none =>
    simp only [hbuf1, if_pos hcap1, if_neg hdead]
    split_ifs <;> exact ⟨r1, r2, by simp [hbuf1]⟩
  | some bb =>
    have hne : ¬ b = bb := by
      intro he
      rw [he] at r3
      exact r3 hbuf1
    simp only [hbuf1, if_pos hcap1, if_neg hdead]
    split_ifs with h1 h2
    · refine ⟨?_, r2, ?_⟩
      · rw [setBlock_mem_ne _ _ _ _ hne]
        exact r1
      · simp only [hbuf1, ne_eq, Option.some.injEq]
        omega
    · refine ⟨?_, r2, ?_⟩
      · rw [setBlock_mem_ne _ _ _ _ hne]
        exact r1
      · simp only [hbuf1, ne_eq, Option.some.injEq]
        omega
    · refine ⟨r1, r2, ?_⟩
      simp only [hbuf1, ne_eq, Option.some.injEq]
      omega

theorem applyOp_frame {α : Type} [Inhabited α] (p : Heap α × Vector α)
    (op : VecOp α) (b : Nat) (hb : b < p.1.next)
    (ho : p.2.data.buffer ≠ some b) :
    (applyOp p op).1.mem b = p.1.mem b ∧
    b < (applyOp p op).1.next ∧
    (applyOp p op).2.data.buffer ≠ some b := by
  cases op with
  | push x => exact pushBack_frame p.1 p.2 x b hb ho
  | pop => exact popBack_frame p.1 p.2 b hb ho
  | reserve n => exact reserve_frame p.1 p.2 n b hb ho
  | resize n => exact resize_frame p.1 p.2 n b hb ho
  | emplace i x => exact emplace_frame p.1 p.2 i x b hb ho
  | erase i => exact erase_frame p.1 p.2 i b hb ho

theorem applyOps_frame {α : Type} [Inhabited α] (ops : List (VecOp α)) :
    ∀ (p : Heap α × Vector α) (b : Nat), b < p.1.next →
      p.2.data.buffer ≠ some b →
      (applyOps p ops).1.mem b = p.1.mem b ∧
      b < (applyOps p ops).1.next ∧
      (applyOps p ops).2.data.buffer ≠ some b := by
  induction ops with
  | nil =>
    intro p b h1 h2
    exact ⟨rfl, h1, h2⟩
  | cons op rest ih =>
    intro p b h1 h2
    have hstep := applyOp_frame p op b h1 h2
    have hrest := ih (applyOp p op) b hstep.2.1 hstep.2.2
    exact ⟨hrest.1.trans hstep.1, hrest.2.1, hrest.2.2⟩

theorem copyCtor_spec {α : Type} (h : Heap α) (C : Vector α) (hv : C.valid h) :
    (Vector.copyCtor h C).2.size = C.size ∧
    (Vector.copyCtor h C).2.data.capacity = C.size ∧
    (Vector.copyCtor h C).2.live (Vector.copyCtor h C).1 = C.live h ∧
    C.live (Vector.copyCtor h C).1 = C.live h ∧
    (∀ b, C.data.buffer = some b →
      b < (Vector.copyCtor h C).1.next ∧
      (Vector.copyCtor h C).2.data.buffer ≠ some b) := by
  obtain ⟨hlenc, hlec, hbufc⟩ := hv
  by_cases hs : C.size = 0
  · have hl0 : C.live h = [] := by
      apply List.eq_nil_of_length_eq_zero
      omega
    have hcc : Vector.copyCtor h C = (h, ⟨⟨none, 0⟩, C.size⟩) := by
      simp [Vector.copyCtor, RawMemory.create, hs]
    rw [hcc]
    refine ⟨rfl, by show (0 : Nat) = C.size; omega, by simp [hl0], rfl, ?_⟩
    intro b hbC
    have hcb : b < h.next := by rw [hbC] at hbufc; exact hbufc
    exact ⟨hcb, by simp⟩
  · have hcc : Vector.copyCtor h C =
        (setBlock ⟨h.next + 1, fun q => if q = h.next then [] else h.mem q⟩
          h.next ((C.live h).take C.size),
         ⟨⟨some h.next, C.size⟩, C.size⟩) := by
      simp only [Vector.copyCtor, RawMemory.create, if_neg hs]
    have htake : (C.live h).take C.size = C.live h :=
      List.take_of_length_le (by omega)
    rw [hcc]
    refine ⟨rfl, rfl, ?_, ?_, ?_⟩
    · rw [live_pair_some _ _ _ h.next rfl, setBlock_mem_self, htake]
    · cases hb : C.data.buffer with
      | none => simp [Vector.live, hb]
      | some cb =>
        have hcb : cb < h.next := by rw [hb] at hbufc; exact hbufc
        rw [live_buffer_eq _ C cb hb,
          setBlock_mem_ne _ _ _ _ (by omega : ¬ cb = h.next),
          bumpHeap_mem h cb (by omega), live_buffer_eq h C cb hb]
    · intro b hbC
      have hcb : b < h.next := by rw [hbC] at hbufc; exact hbufc
      constructor
      · show b < h.next + 1
        omega
      · simp only [ne_eq, Option.some.injEq]
        omega

theorem copyAssign_spec {α : Type} (h : Heap α) (t C : Vector α)
    (hvt : t.valid h) (hvc : C.valid h)
    (hdis : ∀ b, C.data.buffer = some b → t.data.buffer ≠ some b) :
    (Vector.copyAssign false h t C).2.size = C.size ∧
    (Vector.copyAssign false h t C).2.live (Vector.copyAssign false h t C).1 =
      C.live h ∧
    C.live (Vector.copyAssign false h t C).1 = C.live h ∧
    (∀ b, C.data.buffer = some b →
      b < (Vector.copyAssign false h t C).1.next ∧
      (Vector.copyAssign false h t C).2.data.buffer ≠ some b) := by
  obtain ⟨hlent, hlet, hbuft⟩ := hvt
  obtain ⟨hlenc, hlec, hbufc⟩ := hvc
  by_cases hgrow : t.data.capacity < C.size
  · have hs : ¬ C.size = 0 := by omega
    have hcc : Vector.copyCtor h C =
        (setBlock ⟨h.next + 1, fun q => if q = h.next then [] else h.mem q⟩
          h.next ((C.live h).take C.size),
         ⟨⟨some h.next, C.size⟩, C.size⟩) := by
      simp only [Vector.copyCtor, RawMemory.create, if_neg hs]
    have htake : (C.live h).take C.size = C.live h :=
      List.take_of_length_le (by omega)
    have hca : Vector.copyAssign false h t C =
        ((match t.data.buffer with
          | none => (Vector.copyCtor h C).1
          | some tb => setBlock (Vector.copyCtor h C).1 tb []),
         ⟨(Vector.copyCtor h C).2.data, C.size⟩) := by
      simp only [Vector.copyAssign, if_pos hgrow, Vector.Swap]
      rfl
    rw [hca, hcc]
    cases hb2 : t.data.buffer with
    | none =>
      refine ⟨rfl, ?_, ?_, ?_⟩
      · rw [live_pair_some _ _ _ h.next rfl, setBlock_mem_self, htake]
      · cases hb : C.data.buffer with
        | none => simp [Vector.live, hb]
        | some cb =>
          have hcb : cb < h.next := by rw [hb] at hbufc; exact hbufc
          rw [live_buffer_eq _ C cb hb,
            setBlock_mem_ne _ _ _ _ (by omega : ¬ cb = h.next),
            bumpHeap_mem h cb (by omega), live_buffer_eq h C cb hb]
      · intro b hbC
        have hcb : b < h.next := by rw [hbC] at hbufc; exact hbufc
        constructor
        · show b < h.next + 1
          omega
        · simp only [ne_eq, Option.some.injEq]
          omega
    | some tb =>
      have htb : tb < h.next := by rw [hb2] at hbuft; exact hbuft
      refine ⟨rfl, ?_, ?_, ?_⟩
      · rw [live_pair_some _ _ _ h.next rfl,
          setBlock_mem_ne _ _ _ _ (by omega : ¬ h.next = tb),
          setBlock_mem_self, htake]
      · cases hb : C.data.buffer with
        | none => simp [Vector.live, hb]
        | some cb =>
          have hcb : cb < h.next := by rw [hb] at hbufc; exact hbufc
          have hctb : ¬ cb = tb := by
            intro he
            have := hdis cb hb
            rw [hb2, he] at this
            exact this rfl
          rw [live_buffer_eq _ C cb hb,
            setBlock_mem_ne _ _ _ _ hctb,
            setBlock_mem_ne _ _ _ _ (by omega : ¬ cb = h.next),
            bumpHeap_mem h cb (by omega), live_buffer_eq h C cb hb]
      · intro b hbC
        have hcb : b < h.next := by rw [hbC] at hbufc; exact hbufc
        constructor
        · show b < h.next + 1
          omega
        · simp only [ne_eq, Option.some.injEq]
          omega
  · cases hb2 : t.data.buffer with
    | none =>
      have hc0 : t.data.capacity = 0 := by rw [hb2] at hbuft; exact hbuft
      have hs0 : C.size = 0 := by omega
      have hl0 : C.live h = [] := by
        apply List.eq_nil_of_length_eq_zero
        omega
      have hca : Vector.copyAssign false h t C = (h, ⟨t.data, C.size⟩) := by
        simp only [Vector.copyAssign, if_neg hgrow, hb2]
        rfl
      rw [hca]
      refine ⟨rfl, ?_, rfl, ?_⟩
      · rw [hl0]
        simp [Vector.live, hb2]
      · intro b hbC
        have hcb : b < h.next := by rw [hbC] at hbufc; exact hbufc
        refine ⟨hcb, ?_⟩
        show t.data.buffer ≠ some b
        rw [hb2]
        simp
    | some tb =>
      have htb : tb < h.next := by rw [hb2] at hbuft; exact hbuft
      have hmemtb : (h.mem tb).length = t.size := by
        rw [← live_buffer_eq h t tb hb2]
        exact hlent
      have hca : Vector.copyAssign false h t C =
          (setBlock h tb
            (if t.size < C.size then
              ((C.live h).take (min t.size C.size) ++
                (h.mem tb).drop (min t.size C.size)).take t.size ++
                ((C.live h).drop t.size).take (C.size - t.size)
            else if C.size < t.size then
              ((C.live h).take (min t.size C.size) ++
                (h.mem tb).drop (min t.size C.size)).take C.size
            else
              (C.live h).take (min t.size C.size) ++
                (h.mem tb).drop (min t.size C.size)),
           ⟨t.data, C.size⟩) := by
        simp only [Vector.copyAssign, if_neg hgrow, hb2]
        rfl
      have hkey :
          (if t.size < C.size then
            ((C.live h).take (min t.size C.size) ++
              (h.mem tb).drop (min t.size C.size)).take t.size ++
              ((C.live h).drop t.size).take (C.size - t.size)
          else if C.size < t.size then
            ((C.live h).take (min t.size C.size) ++
              (h.mem tb).drop (min t.size C.size)).take C.size
          else
            (C.live h).take (min t.size C.size) ++
              (h.mem tb).drop (min t.size C.size)) = C.live h := by
        rcases Nat.lt_trichotomy t.size C.size with hlt | heq | hgt
        · have hmin : min t.size C.size = t.size := by omega
          rw [if_pos hlt, hmin]
          rw [show (h.mem tb).drop t.size = ([] : List α) from
            List.drop_eq_nil_of_le (by omega), List.append_nil]
          rw [List.take_take, Nat.min_self]
          rw [show ((C.live h).drop t.size).take (C.size - t.size) =
              (C.live h).drop t.size from
            List.take_of_length_le (by simp only [List.length_drop]; omega)]
          exact List.take_append_drop t.size (C.live h)
        · have hnlt : ¬ t.size < C.size := by omega
          have hnlt2 : ¬ C.size < t.size := by omega
          have hmin : min t.size C.size = t.size := by omega
          rw [if_neg hnlt, if_neg hnlt2, hmin]
          rw [show (C.live h).take t.size = C.live h from
            List.take_of_length_le (by omega)]
          rw [show (h.mem tb).drop t.size = ([] : List α) from
            List.drop_eq_nil_of_le (by omega)]
          exact List.append_nil _
        · have hnlt : ¬ t.size < C.size := by omega
          have hmin : min t.size C.size = C.size := by omega
          rw [if_neg hnlt, if_pos hgt, hmin]
          rw [show (C.live h).take C.size = C.live h from
            List.take_of_length_le (by omega)]
          rw [List.take_append_of_le_length (by omega)]
          exact List.take_of_length_le (by omega)
      rw [hca]
      refine ⟨rfl, ?_, ?_, ?_⟩
      · rw [live_pair_some _ _ _ tb hb2, setBlock_mem_self, hkey]
      · cases hb : C.data.buffer with
        | none => simp [Vector.live, hb]
        | some cb =>
          have hcb : cb < h.next := by rw [hb] at hbufc; exact hbufc
          have hctb : ¬ cb = tb := by
            intro he
            have := hdis cb hb
            rw [hb2, he] at this
            exact this rfl
          rw [live_buffer_eq _ C cb hb, setBlock_mem_ne _ _ _ _ hctb,
            live_buffer_eq h C cb hb]
      · intro b hbC
        have hcb : b < h.next := by rw [hbC] at hbufc; exact hbufc
        refine ⟨hcb, ?_⟩
        show t.data.buffer ≠ some b
        exact hdis b hbC

/-- C8: copy construction and copy assignment from `C` produce a vector of
the same size with element-wise equal contents; copy construction allocates
capacity equal to `C`'s size (not `C`'s capacity) and performs only
copy-constructions of the elements (never a move); and the copy is deep:
after any sequence of mutating operations applied to the copy (or to the
assigned-to target), `C`'s live elements are unchanged. -/
theorem copy_is_deep {α : Type} [Inhabited α] (h : Heap α) (t C : Vector α)
    (hvC : C.valid h) (hvt : t.valid h)
    (hdis : ∀ b, C.data.buffer = some b → t.data.buffer ≠ some b) :
    (Vector.copyCtor h C).2.Size = C.Size ∧
    (Vector.copyCtor h C).2.live (Vector.copyCtor h C).1 = C.live h ∧
    (Vector.copyCtor h C).2.Capacity = C.Size ∧
    RelocKind.moveCons ∉ Vector.copyCtorEvents C ∧
    (∀ ops : List (VecOp α),
      C.live (applyOps (Vector.copyCtor h C) ops).1 = C.live h) ∧
    (Vector.copyAssign false h t C).2.Size = C.Size ∧
    (Vector.copyAssign false h t C).2.live (Vector.copyAssign false h t C).1 =
      C.live h ∧
    (∀ ops : List (VecOp α),
      C.live (applyOps (Vector.copyAssign false h t C) ops).1 = C.live h) := by
  obtain ⟨s1, s2, s3, s4, s5⟩ := copyCtor_spec h C hvC
  obtain ⟨a1, a2, a3, a4⟩ := copyAssign_spec h t C hvt hvC hdis
  refine ⟨s1, s3, s2, ?_, ?_, a1, a2, ?_⟩
  · intro hmem
    simp only [Vector.copyCtorEvents, stdUninitCopyEvents] at hmem
    have := List.eq_of_mem_replicate hmem
    exact absurd this (by simp)
  · intro ops
    cases hb : C.data.buffer with
    | none => simp [Vector.live, hb]
    | some cb =>
      have hfacts := s5 cb hb
      have hframe :=
        applyOps_frame ops (Vector.copyCtor h C) cb hfacts.1 hfacts.2
      rw [live_buffer_eq _ C cb hb, hframe.1,
        ← live_buffer_eq (Vector.copyCtor h C).1 C cb hb]
      exact s4
  · intro ops
    cases hb : C.data.buffer with
    | none => simp [Vector.live, hb]
    | some cb =>
      have hfacts := a4 cb hb
      have hframe :=
        applyOps_frame ops (Vector.copyAssign false h t C) cb hfacts.1
          hfacts.2
      rw [live_buffer_eq _ C cb hb, hframe.1,
        ← live_buffer_eq (Vector.copyAssign false h t C).1 C cb hb]
      exact a3

theorem copy_is_deep_witness :
    (Vector.copyCtor hOne vOne).2.Size = 1 ∧
    (Vector.copyCtor hOne vOne).2.live (Vector.copyCtor hOne vOne).1 = [5] ∧
    (Vector.copyCtor hOne vOne).2.Capacity = 1 ∧
    vOne.live (applyOps (Vector.copyCtor hOne vOne) [VecOp.push 9]).1 =
      [5] := by
  have hc := copy_is_deep hOne Vector.emptyVec vOne vOne_valid
    (emptyVec_valid hOne) (by intro b _; simp [Vector.emptyVec])
  refine ⟨hc.1, ?_, hc.2.2.1, ?_⟩
  · rw [hc.2.1]
    rfl
  · rw [hc.2.2.2.2.1 [VecOp.push 9]]
    rfl
